import Mathlib

/-!
# Verification of the `paw` crawler against its specification

This file gives a shallow embedding, in Lean 4, of the core logic of the
`paw` web crawler (`src/paw/paw.py`) and settles the specification claims
about it.

Modelling conventions:
* Python strings are embedded as `List Char` (abbreviated `Chars`).
* The HTTP transport (`requests.get`) is embedded as a `World` function
  from URL to an optional fetched `Page`; `none` models any exception
  raised by the transport (network failure, non-2xx status, unsupported
  scheme).  A `World` is fixed for the duration of a call, modelling a
  deterministic network.
* External collaborators (BeautifulSoup's parse tree, the `html2text`
  converter) are embedded abstractly: a fetched `Page` carries the
  content type of the response, the `href` attributes of its anchor
  elements in document order, and the raw text the markdown converter
  produces for it.
* `urllib.parse.urljoin` is an external stdlib collaborator; the crawler
  is parameterised by the join function.  Concrete evaluations use
  `urljoinAbs`, its restriction to absolute hrefs (on which `urljoin`
  returns the href unchanged).
* The crawl loop is embedded with explicit fuel; all safety claims are
  proved for every fuel value.
-/

abbrev Chars := List Char

/-! ## Basic Python string primitives -/

/-- `begins pat s` holds when `pat` is an initial segment of `s`
(Python `str.startswith`). -/
def begins : Chars → Chars → Bool
  | [], _ => true
  | _ :: _, [] => false
  | p :: ps, c :: cs => decide (p = c) && begins ps cs

/-- `hasSub pat s` holds when `pat` occurs contiguously somewhere in `s`
(Python `pat in s`). -/
def hasSub (pat : Chars) : Chars → Bool
  | [] => begins pat []
  | c :: cs => begins pat (c :: cs) || hasSub pat cs

/-- Characters stripped by Python `str.strip()`:
space, tab, newline, carriage return, vertical tab, form feed. -/
def isPySpace (c : Char) : Bool :=
  decide (c = ' ') || decide (c = '\t') || decide (c = '\n') ||
  decide (c = '\r') || decide (c = Char.ofNat 11) || decide (c = Char.ofNat 12)

/-- Python `str.strip()`: remove whitespace from both ends. -/
def pyStrip (s : Chars) : Chars :=
  ((s.dropWhile isPySpace).reverse.dropWhile isPySpace).reverse

/-- Recursion core of `pyReplace`.  The `Nat` argument is structural
fuel bounding the number of characters still to scan; every step
consumes at least one character, so with fuel `s.length` the zero-fuel
case is never reached on the characters of `s`. -/
def pyReplaceAux (pat rep : Chars) : Nat → Chars → Chars
  | 0, s => s
  | n + 1, s =>
    match s with
    | [] => []
    | c :: cs =>
      if pat ≠ [] ∧ begins pat (c :: cs) then
        rep ++ pyReplaceAux pat rep n ((c :: cs).drop pat.length)
      else
        c :: pyReplaceAux pat rep n cs

/-- Python `str.replace(pat, rep)` for a non-empty `pat`: replace every
non-overlapping occurrence of `pat`, scanning left to right.  (The paw
source only calls it with the non-empty pattern `"www."`.) -/
def pyReplace (pat rep s : Chars) : Chars :=
  pyReplaceAux pat rep s.length s

/-! ## Markdown normalization (`Paw._clean_markdown`, paw.py lines 104-120)

The Python code applies, in order:
1. `re.sub(r"\n{3,}", "\n\n", markdown)` — every maximal run of three or
   more newlines becomes exactly two newlines;
2. `re.sub(r" +\n", "\n", markdown)` — every run of spaces immediately
   preceding a newline is removed;
3. `str.strip()` — leading/trailing whitespace of the whole text removed.
-/

/-- Model of `re.sub(r"\n{3,}", "\n\n", s)`: a newline character is
dropped exactly when at least two newlines follow it, so each maximal
run of `k ≥ 3` newlines keeps only its last two. -/
def collapseNewlines : Chars → Chars
  | [] => []
  | c :: cs =>
    let r := collapseNewlines cs
    if decide (c = '\n') && begins ['\n', '\n'] r then r else c :: r

/-- Model of `re.sub(r" +\n", "\n", s)`: a space character is dropped
exactly when it is followed, through spaces only, by a newline. -/
def stripTrailingWs : Chars → Chars
  | [] => []
  | c :: cs =>
    let r := stripTrailingWs cs
    if decide (c = ' ') && begins ['\n'] r then r else c :: r

/-- `Paw._clean_markdown` (paw.py lines 104-120). -/
def cleanMarkdown (s : Chars) : Chars :=
  pyStrip (stripTrailingWs (collapseNewlines s))

/-! ### Lemmas about the string primitives -/

theorem hasSub_nil_left (s : Chars) : hasSub [] s = true := by
  cases s <;> simp [hasSub, begins]

theorem begins_append (pat t r : Chars) (h : begins pat t = true) :
    begins pat (t ++ r) = true := by
  induction pat generalizing t with
  | nil => rfl
  | cons p ps ih =>
    cases t with
    | nil => simp [begins] at h
    | cons c cs =>
      simp only [List.cons_append]
      simp only [begins, Bool.and_eq_true] at h ⊢
      exact ⟨h.1, ih cs h.2⟩

theorem hasSub_append_right (pat t r : Chars) (h : hasSub pat t = true) :
    hasSub pat (t ++ r) = true := by
  induction t with
  | nil =>
    have hp : pat = [] := by
      cases pat with
      | nil => rfl
      | cons p ps => simp [hasSub, begins] at h
    subst hp
    exact hasSub_nil_left r
  | cons c cs ih =>
    simp only [List.cons_append]
    simp only [hasSub, Bool.or_eq_true] at h ⊢
    rcases h with h | h
    · exact Or.inl (by simpa using begins_append pat (c :: cs) r h)
    · exact Or.inr (ih h)

theorem hasSub_append_left (pat u t : Chars) (h : hasSub pat t = true) :
    hasSub pat (u ++ t) = true := by
  induction u with
  | nil => simpa using h
  | cons a u' ih =>
    simp only [List.cons_append]
    simp only [hasSub, Bool.or_eq_true]
    exact Or.inr ih

/-- `pyStrip s` occurs contiguously inside `s`. -/
theorem pyStrip_decomp (s : Chars) : ∃ u v, s = u ++ pyStrip s ++ v := by
  refine ⟨s.takeWhile isPySpace,
    ((s.dropWhile isPySpace).reverse.takeWhile isPySpace).reverse, ?_⟩
  have h1 : s.takeWhile isPySpace ++ s.dropWhile isPySpace = s :=
    List.takeWhile_append_dropWhile isPySpace s
  have h2 : (s.dropWhile isPySpace).reverse.takeWhile isPySpace ++
      (s.dropWhile isPySpace).reverse.dropWhile isPySpace =
      (s.dropWhile isPySpace).reverse :=
    List.takeWhile_append_dropWhile isPySpace (s.dropWhile isPySpace).reverse
  have h3 : s.dropWhile isPySpace =
      pyStrip s ++ ((s.dropWhile isPySpace).reverse.takeWhile isPySpace).reverse := by
    have := congrArg List.reverse h2
    simp only [List.reverse_append, List.reverse_reverse] at this
    conv_lhs => rw [← this]
    rfl
  conv_lhs => rw [← h1, h3]
  simp [List.append_assoc]

theorem hasSub_of_hasSub_pyStrip (pat s : Chars)
    (h : hasSub pat (pyStrip s) = true) : hasSub pat s = true := by
  obtain ⟨u, v, hs⟩ := pyStrip_decomp s
  rw [hs, List.append_assoc]
  exact hasSub_append_left _ _ _ (hasSub_append_right _ _ _ h)

theorem hasSub_pyStrip_false (pat s : Chars) (h : hasSub pat s = false) :
    hasSub pat (pyStrip s) = false := by
  cases hb : hasSub pat (pyStrip s) with
  | false => rfl
  | true => exact absurd (hasSub_of_hasSub_pyStrip pat s hb) (by simp [h])

theorem dropWhile_head_not (p : Char → Bool) (l : Chars) (x : Char)
    (h : (l.dropWhile p).head? = some x) : p x = false := by
  induction l with
  | nil => simp [List.dropWhile] at h
  | cons c cs ih =>
    rw [List.dropWhile_cons] at h
    cases hc : p c with
    | true =>
      simp only [hc] at h
      simp only [if_true] at h
      exact ih h
    | false =>
      simp only [hc] at h
      simp only [Bool.false_eq_true, if_false, List.head?_cons, Option.some.injEq] at h
      subst h
      exact hc

theorem dropWhile_eq_self_of_head (p : Char → Bool) (l : Chars)
    (h : ∀ x, l.head? = some x → p x = false) : l.dropWhile p = l := by
  cases l with
  | nil => rfl
  | cons c cs =>
    rw [List.dropWhile_cons]
    simp [h c rfl]

theorem getLast?_append_right (l₁ l₂ : Chars) (h : l₂ ≠ []) :
    (l₁ ++ l₂).getLast? = l₂.getLast? := by
  induction l₁ with
  | nil => rfl
  | cons a t ih =>
    rw [List.cons_append, List.getLast?_cons]
    rw [ih]
    cases l₂ with
    | nil => exact absurd rfl h
    | cons b u => simp [List.getLast?_cons, List.getLastD]

/-- The first character of `pyStrip s` is not Python whitespace. -/
theorem pyStrip_head (s : Chars) (x : Char)
    (h : (pyStrip s).head? = some x) : isPySpace x = false := by
  unfold pyStrip at h
  rw [List.head?_reverse] at h
  have hne : (s.dropWhile isPySpace).reverse.dropWhile isPySpace ≠ [] := by
    intro hnil
    rw [hnil] at h
    simp at h
  have h2 : (s.dropWhile isPySpace).reverse.takeWhile isPySpace ++
      (s.dropWhile isPySpace).reverse.dropWhile isPySpace =
      (s.dropWhile isPySpace).reverse :=
    List.takeWhile_append_dropWhile isPySpace (s.dropWhile isPySpace).reverse
  have h3 : ((s.dropWhile isPySpace).reverse.dropWhile isPySpace).getLast? =
      (s.dropWhile isPySpace).reverse.getLast? := by
    conv_rhs => rw [← h2]
    exact (getLast?_append_right _ _ hne).symm
  rw [h3, List.getLast?_reverse] at h
  exact dropWhile_head_not isPySpace s x h

/-- The last character of `pyStrip s` is not Python whitespace. -/
theorem pyStrip_getLast (s : Chars) (x : Char)
    (h : (pyStrip s).getLast? = some x) : isPySpace x = false := by
  unfold pyStrip at h
  rw [List.getLast?_reverse] at h
  exact dropWhile_head_not isPySpace _ x h

/-- Python `strip` is idempotent. -/
theorem pyStrip_idem (s : Chars) : pyStrip (pyStrip s) = pyStrip s := by
  show (((pyStrip s).dropWhile isPySpace).reverse.dropWhile isPySpace).reverse = pyStrip s
  have h1 : (pyStrip s).dropWhile isPySpace = pyStrip s :=
    dropWhile_eq_self_of_head _ _ (fun x hx => pyStrip_head s x hx)
  rw [h1]
  have h2 : (pyStrip s).reverse.dropWhile isPySpace = (pyStrip s).reverse :=
    dropWhile_eq_self_of_head _ _ (fun x hx =>
      pyStrip_getLast s x (by rwa [List.head?_reverse] at hx))
  rw [h2, List.reverse_reverse]

/-! ### Idempotence analysis of the markdown normalization -/

/-- If the collapsed text starts with a newline, the input did too
(`collapseNewlines` never moves a non-newline character to the front
past a newline). -/
theorem collapseNewlines_begins_nl (s : Chars)
    (h : begins ['\n'] (collapseNewlines s) = true) : begins ['\n'] s = true := by
  induction s with
  | nil => simpa [collapseNewlines] using h
  | cons c cs ih =>
    simp only [collapseNewlines] at h
    by_cases hc : (decide (c = '\n') && begins ['\n', '\n'] (collapseNewlines cs)) = true
    · rw [if_pos hc] at h
      rcases Bool.and_eq_true_iff.mp hc with ⟨hc1, _⟩
      have : c = '\n' := of_decide_eq_true hc1
      subst this
      simp [begins]
    · rw [if_neg hc] at h
      simp only [begins, Bool.and_eq_true, decide_eq_true_eq] at h ⊢
      exact h

/-- The output of `collapseNewlines` never contains three consecutive
newlines. -/
theorem collapseNewlines_noTriple (s : Chars) :
    hasSub ['\n', '\n', '\n'] (collapseNewlines s) = false := by
  induction s with
  | nil => rfl
  | cons c cs ih =>
    simp only [collapseNewlines]
    by_cases hc : (decide (c = '\n') && begins ['\n', '\n'] (collapseNewlines cs)) = true
    · rw [if_pos hc]; exact ih
    · rw [if_neg hc]
      simp only [hasSub, Bool.or_eq_false_iff]
      refine ⟨?_, ih⟩
      by_contra hb
      have hb' : begins ['\n', '\n', '\n'] (c :: collapseNewlines cs) = true := by
        cases hbv : begins ['\n', '\n', '\n'] (c :: collapseNewlines cs)
        · exact absurd hbv hb
        · rfl
      simp only [begins, Bool.and_eq_true, decide_eq_true_eq] at hb'
      exact hc (by
        simp only [Bool.and_eq_true, decide_eq_true_eq]
        refine ⟨hb'.1.symm, ?_⟩
        cases hr : collapseNewlines cs with
        | nil => rw [hr] at hb'; simp [begins] at hb'
        | cons d ds =>
          rw [hr] at hb'
          simp only [begins, Bool.and_eq_true, decide_eq_true_eq] at hb'
          cases ds with
          | nil => simp [begins] at hb'
          | cons e es =>
            simp only [begins, Bool.and_eq_true, decide_eq_true_eq] at hb' ⊢
            exact ⟨hb'.2.1, hb'.2.2.1, trivial⟩)

/-- On text with no triple newline, `collapseNewlines` is the identity. -/
theorem collapseNewlines_eq_self (s : Chars)
    (h : hasSub ['\n', '\n', '\n'] s = false) : collapseNewlines s = s := by
  induction s with
  | nil => rfl
  | cons c cs ih =>
    simp only [hasSub, Bool.or_eq_false_iff] at h
    obtain ⟨hb, hsub⟩ := h
    have hcs := ih hsub
    simp only [collapseNewlines, hcs]
    rw [if_neg]
    intro hcond
    rcases Bool.and_eq_true_iff.mp hcond with ⟨hc1, hc2⟩
    have hc : c = '\n' := of_decide_eq_true hc1
    subst hc
    cases hcsv : cs with
    | nil => rw [hcsv] at hc2; simp [begins] at hc2
    | cons d ds =>
      rw [hcsv] at hc2 hb
      simp only [begins, Bool.and_eq_true, decide_eq_true_eq] at hc2
      cases hds : ds with
      | nil => rw [hds] at hc2; simp [begins] at hc2
      | cons e es =>
        rw [hds] at hc2 hb
        simp only [begins, Bool.and_eq_true, decide_eq_true_eq] at hc2
        obtain ⟨hd, he, -⟩ := hc2
        rw [← hd, ← he] at hb
        simp [begins] at hb

/-- `collapseNewlines` never creates a space-before-newline occurrence. -/
theorem collapseNewlines_noSpaceNL (s : Chars)
    (h : hasSub [' ', '\n'] s = false) :
    hasSub [' ', '\n'] (collapseNewlines s) = false := by
  induction s with
  | nil => rfl
  | cons c cs ih =>
    simp only [hasSub, Bool.or_eq_false_iff] at h
    obtain ⟨hb, hsub⟩ := h
    have hr := ih hsub
    simp only [collapseNewlines]
    by_cases hc : (decide (c = '\n') && begins ['\n', '\n'] (collapseNewlines cs)) = true
    · rw [if_pos hc]; exact hr
    · rw [if_neg hc]
      simp only [hasSub, Bool.or_eq_false_iff]
      refine ⟨?_, hr⟩
      by_contra hbc
      have hb' : begins [' ', '\n'] (c :: collapseNewlines cs) = true := by
        cases hbv : begins [' ', '\n'] (c :: collapseNewlines cs)
        · exact absurd hbv hbc
        · rfl
      simp only [begins, Bool.and_eq_true, decide_eq_true_eq] at hb'
      obtain ⟨hsp, htail⟩ := hb'
      have hnl : begins ['\n'] (collapseNewlines cs) = true := by
        cases hr2 : collapseNewlines cs with
        | nil => rw [hr2] at htail; simp [begins] at htail
        | cons d ds =>
          rw [hr2] at htail
          simp only [begins, Bool.and_eq_true, decide_eq_true_eq] at htail ⊢
          exact ⟨htail.1, trivial⟩
      have hnl2 := collapseNewlines_begins_nl cs hnl
      apply absurd hb
      simp only [Bool.not_eq_false]
      cases hcsv : cs with
      | nil => rw [hcsv] at hnl2; simp [begins] at hnl2
      | cons d ds =>
        rw [hcsv] at hnl2
        simp only [begins, Bool.and_eq_true, decide_eq_true_eq] at hnl2 ⊢
        exact ⟨hsp, hnl2.1, trivial⟩

/-- On text with no space-before-newline, `stripTrailingWs` is the
identity. -/
theorem stripTrailingWs_eq_self (s : Chars)
    (h : hasSub [' ', '\n'] s = false) : stripTrailingWs s = s := by
  induction s with
  | nil => rfl
  | cons c cs ih =>
    simp only [hasSub, Bool.or_eq_false_iff] at h
    obtain ⟨hb, hsub⟩ := h
    have hcs := ih hsub
    simp only [stripTrailingWs, hcs]
    rw [if_neg]
    intro hcond
    rcases Bool.and_eq_true_iff.mp hcond with ⟨hc1, hc2⟩
    have hc : c = ' ' := of_decide_eq_true hc1
    subst hc
    apply absurd hb
    simp only [Bool.not_eq_false]
    cases hcsv : cs with
    | nil => rw [hcsv] at hc2; simp [begins] at hc2
    | cons d ds =>
      rw [hcsv] at hc2
      simp only [begins, Bool.and_eq_true, decide_eq_true_eq] at hc2 ⊢
      exact ⟨trivial, hc2.1, trivial⟩

/-- C2, counterexample: the markdown normalization of
`Paw._clean_markdown` is not idempotent.  On `"a\n\n \nb"` the first
pass removes the space before the final newline, creating the new
triple-newline run `"a\n\n\nb"`, which only a second pass collapses to
`"a\n\nb"`. -/
theorem cleanMarkdown_not_idempotent :
    cleanMarkdown (cleanMarkdown "a\n\n \nb".toList) ≠
      cleanMarkdown "a\n\n \nb".toList := by
  decide

/-- C2 (amended): the markdown normalization is idempotent on every
input that contains no space character immediately followed by a
newline; on such input a second application of `Paw._clean_markdown`
returns its argument unchanged. -/
theorem cleanMarkdown_idem_of_noSpaceNL (s : Chars)
    (h : hasSub [' ', '\n'] s = false) :
    cleanMarkdown (cleanMarkdown s) = cleanMarkdown s := by
  have hz : hasSub [' ', '\n'] (collapseNewlines s) = false :=
    collapseNewlines_noSpaceNL s h
  have h1 : stripTrailingWs (collapseNewlines s) = collapseNewlines s :=
    stripTrailingWs_eq_self _ hz
  have hclean : cleanMarkdown s = pyStrip (collapseNewlines s) := by
    unfold cleanMarkdown
    rw [h1]
  have hyTriple : hasSub ['\n', '\n', '\n'] (pyStrip (collapseNewlines s)) = false :=
    hasSub_pyStrip_false _ _ (collapseNewlines_noTriple s)
  have hySpace : hasSub [' ', '\n'] (pyStrip (collapseNewlines s)) = false :=
    hasSub_pyStrip_false _ _ hz
  have h2 : collapseNewlines (pyStrip (collapseNewlines s)) =
      pyStrip (collapseNewlines s) :=
    collapseNewlines_eq_self _ hyTriple
  have h3 : stripTrailingWs (pyStrip (collapseNewlines s)) =
      pyStrip (collapseNewlines s) :=
    stripTrailingWs_eq_self _ hySpace
  rw [hclean]
  unfold cleanMarkdown
  rw [h2, h3, pyStrip_idem]

/-- Witness for C2 (amended) at the concrete input
`"Title\n\n\n\nBody text"`, which contains no space-before-newline. -/
theorem cleanMarkdown_idem_witness :
    hasSub [' ', '\n'] "Title\n\n\n\nBody text".toList = false ∧
      cleanMarkdown (cleanMarkdown "Title\n\n\n\nBody text".toList) =
        cleanMarkdown "Title\n\n\n\nBody text".toList :=
  ⟨by decide, cleanMarkdown_idem_of_noSpaceNL _ (by decide)⟩

/-! ## URL handling (`Paw._same_domain` and `Paw._extract_links`,
paw.py lines 53-102) -/

/-- Characters allowed in a URL scheme after the first letter
(model of `urllib.parse`'s scheme grammar). -/
def isSchemeChar (c : Char) : Bool :=
  c.isAlphanum || decide (c = '+') || decide (c = '-') || decide (c = '.')

/-- Model of `urllib.parse.urlparse`'s scheme splitting: if the URL
starts with `<letter><scheme chars>*:`, drop the scheme and the colon. -/
def splitScheme (url : Chars) : Chars :=
  match url with
  | [] => []
  | c :: _ =>
    let pre := url.takeWhile isSchemeChar
    if c.isAlpha && decide (url.get? pre.length = some ':') then
      url.drop (pre.length + 1)
    else
      url

/-- Model of `urllib.parse.urlparse(url).netloc` for the URL shapes the
crawler handles: the text between a leading `//` (after an optional
scheme) and the next `/`, `?` or `#`; empty when the URL has no
authority component. -/
def netloc (url : Chars) : Chars :=
  let r := splitScheme url
  if begins ['/', '/'] r then
    (r.drop 2).takeWhile fun c => !(decide (c = '/') || decide (c = '?') || decide (c = '#'))
  else
    []

/-- `Paw._same_domain` (paw.py lines 84-102): compare the two netlocs
after `str.replace("www.", "")`, which removes EVERY occurrence of
`"www."`, not only a leading prefix. -/
def sameDomain (url baseUrl : Chars) : Bool :=
  decide (pyReplace "www.".toList [] (netloc url) =
    pyReplace "www.".toList [] (netloc baseUrl))

/-- Modelled from the spec: the "registrable domain" of a URL is its
host with a LEADING `"www."` prefix ignored (spec §4.2 and glossary);
used to compare the code's behaviour against the spec's words. -/
def registrableDomain (url : Chars) : Chars :=
  let h := netloc url
  if begins "www.".toList h then h.drop 4 else h

/-- Model of `urllib.parse.urljoin` restricted to absolute hrefs, on
which `urljoin` returns the href unchanged.  Used for concrete
evaluations; universal theorems quantify over the join function. -/
def urljoinAbs : Chars → Chars → Chars := fun _ href => href

/-- `Paw._extract_links` (paw.py lines 53-82), parameterised by the
external `urljoin` function.  `hrefs` are the `href` attributes of the
page's anchors in document order: skip an empty href or a pure fragment
reference, resolve against `baseUrl`, drop fragment and query suffix,
and keep the result when `sameDomain` accepts it. -/
def extractLinks (join : Chars → Chars → Chars) (hrefs : List Chars)
    (baseUrl : Chars) : List Chars :=
  hrefs.filterMap fun href =>
    if href = [] || begins ['#'] href then
      none
    else
      let absolute := ((join baseUrl href).takeWhile fun c => decide (c ≠ '#')).takeWhile
        fun c => decide (c ≠ '?')
      if sameDomain absolute baseUrl then some absolute else none

/-- C3, code-bug evidence: `str.replace("www.", "")` removes `"www."`
anywhere in the host, not only a leading prefix (despite the code's own
comment "Remove 'www.' prefix for comparison").  With base
`https://example.com`, the link `https://exwww.ample.com/x` has a
different registrable domain (`exwww.ample.com` vs `example.com`), yet
`_same_domain` accepts it and `_extract_links` returns it. -/
theorem sameDomain_replace_all_bug :
    sameDomain "https://exwww.ample.com/x".toList "https://example.com".toList = true ∧
      registrableDomain "https://exwww.ample.com/x".toList ≠
        registrableDomain "https://example.com".toList ∧
      extractLinks urljoinAbs ["https://exwww.ample.com/x".toList]
        "https://example.com".toList = ["https://exwww.ample.com/x".toList] := by
  decide

/-! ## The crawler (`Paw.scrape`, `Paw.crawl`, `Paw.extract`,
paw.py lines 122-304) -/

/-- Error taxonomy of the spec (§7). -/
inductive PawError
  | invalidInput
  | connectionFailure
  | notHtmlContent
  | emptyContent
deriving DecidableEq

/-- A successfully fetched page, with its externally produced parts:
the `Content-Type` response header, the `href` attributes of its anchor
elements in document order (BeautifulSoup), and the text the
`html2text` converter renders for it (before cleaning). -/
structure Page where
  contentType : Chars
  hrefs : List Chars
  raw : Chars

/-- The HTTP transport: `none` models any exception raised by
`requests.get`/`raise_for_status` (network failure, non-2xx status,
unsupported scheme); fixed during one call (deterministic network). -/
def World := Chars → Option Page

/-- `url.startswith(("http://", "https://"))` (paw.py lines 134, 187). -/
def validUrl (url : Chars) : Bool :=
  begins "http://".toList url || begins "https://".toList url

/-- `"text/html" in content_type` (paw.py lines 147, 221). -/
def isHtml (contentType : Chars) : Bool :=
  hasSub "text/html".toList contentType

/-- `Paw.scrape` (paw.py lines 122-167): validate the URL, fetch it,
require HTML content, convert and clean.  The second component lists
the URLs actually requested over the network (empty when validation
fails before any request). -/
def scrape (world : World) (url : Chars) : Except PawError Chars × List Chars :=
  if validUrl url = false then
    (Except.error PawError.invalidInput, [])
  else
    match world url with
    | none => (Except.error PawError.connectionFailure, [url])
    | some p =>
      if isHtml p.contentType then
        (Except.ok (cleanMarkdown p.raw), [url])
      else
        (Except.error PawError.notHtmlContent, [url])

/-- Observable events of one crawl, in order of occurrence:
`deq` — an entry is popped from the queue (line 200);
`mark` — a URL is inserted into the visited set (line 211);
`fetch` — an HTTP GET is performed (lines 214 and, via the inner
`self.scrape(url)` call, 138);
`store` — the page content is stored in `content_dict` (line 228);
`enq` — an entry is appended to the queue (line 235). -/
inductive Ev
  | deq (url : Chars) (depth : Int)
  | mark (url : Chars)
  | fetch (url : Chars)
  | store (url : Chars) (depth : Int)
  | enq (url : Chars) (depth : Int)
deriving DecidableEq

/-- The mutable state of `Paw.crawl`'s loop (paw.py lines 190-197):
the FIFO queue of `(url, depth)` entries, the visited set (as the list
of its insertions), and the insertion-ordered `content_dict`. -/
structure CrawlState where
  queue : List (Chars × Int)
  visited : List Chars
  content : List (Chars × Chars)

/-- One iteration of the `while queue:` loop of `Paw.crawl`
(paw.py lines 199-243), for the dequeued entry `(url, depth)`:

* if the URL is visited or the depth exceeds `max_depth`, the entry is
  discarded with no fetch (line 203);
* otherwise the URL is marked visited (line 211) and fetched
  (line 214); a transport failure is swallowed (line 242);
* non-HTML content is skipped (line 221);
* for HTML content, `content_dict[url] = self.scrape(url)` (line 228)
  performs a SECOND fetch of the same URL — in a fixed `World` it
  succeeds with the cleaned markdown, since the loop's own fetch just
  returned HTML for this URL — hence the two `fetch` events;
* when `depth < max_depth`, each extracted link not already visited is
  appended to the queue at `depth + 1` (lines 230-235). -/
def crawlStep (join : Chars → Chars → Chars) (world : World) (maxDepth : Int)
    (url : Chars) (depth : Int) (rest : List (Chars × Int))
    (visited : List Chars) (content : List (Chars × Chars)) :
    CrawlState × List Ev :=
  if url ∈ visited ∨ depth > maxDepth then
    (⟨rest, visited, content⟩, [Ev.deq url depth])
  else
    match world url with
    | none =>
      (⟨rest, url :: visited, content⟩,
        [Ev.deq url depth, Ev.mark url, Ev.fetch url])
    | some p =>
      if isHtml p.contentType then
        let entries :=
          if depth < maxDepth then
            ((extractLinks join p.hrefs url).filter fun l =>
              decide (¬ l ∈ url :: visited)).map fun l => (l, depth + 1)
          else []
        (⟨rest ++ entries, url :: visited, content ++ [(url, cleanMarkdown p.raw)]⟩,
          [Ev.deq url depth, Ev.mark url, Ev.fetch url, Ev.fetch url,
            Ev.store url depth] ++ entries.map fun e => Ev.enq e.1 e.2)
      else
        (⟨rest, url :: visited, content⟩,
          [Ev.deq url depth, Ev.mark url, Ev.fetch url])

/-- The `while queue:` loop (paw.py line 199), with structural fuel.
Every claim proved below holds for every fuel value. -/
def crawlLoop (join : Chars → Chars → Chars) (world : World) (maxDepth : Int) :
    Nat → CrawlState → CrawlState × List Ev
  | 0, s => (s, [])
  | fuel + 1, s =>
    match s.queue with
    | [] => (s, [])
    | (url, depth) :: rest =>
      let se := crawlStep join world maxDepth url depth rest s.visited s.content
      let co := crawlLoop join world maxDepth fuel se.1
      (co.1, se.2 ++ co.2)

/-- `Paw.crawl` (paw.py lines 169-252), up to result formatting: the
URL is validated before the queue is created (line 187), then the loop
runs to completion.  Returns the insertion-ordered `content_dict` and
the event trace. -/
def crawl (join : Chars → Chars → Chars) (world : World) (baseUrl : Chars)
    (maxDepth : Int) (fuel : Nat) :
    Except PawError (List (Chars × Chars)) × List Ev :=
  if validUrl baseUrl = false then
    (Except.error PawError.invalidInput, [])
  else
    let r := crawlLoop join world maxDepth fuel ⟨[(baseUrl, 0)], [], []⟩
    (Except.ok r.1.content, r.2)

/-- The `format_type == "markdown"` assembly (paw.py lines 245-250):
`"URL: {url}\n\n{content}"` blocks joined by `"\n\n---\n\n"` in
insertion order. -/
def assembleMarkdown (content : List (Chars × Chars)) : Chars :=
  List.intercalate "\n\n---\n\n".toList
    (content.map fun uc => "URL: ".toList ++ uc.1 ++ "\n\n".toList ++ uc.2)

/-- `Paw.crawl` called with `format_type="markdown"`. -/
def crawlMarkdown (join : Chars → Chars → Chars) (world : World)
    (baseUrl : Chars) (maxDepth : Int) (fuel : Nat) :
    Except PawError Chars × List Ev :=
  match crawl join world baseUrl maxDepth fuel with
  | (Except.error e, evs) => (Except.error e, evs)
  | (Except.ok content, evs) => (Except.ok (assembleMarkdown content), evs)

/-- `Paw.extract` (paw.py lines 254-304): crawl with
`format_type="markdown"`, fail with `EmptyContent` when the aggregated
markdown is empty after trimming (line 283), otherwise hand the
document to the external structured-completion service `complete`.
The boolean records whether the completion service was invoked.
(Constructing the OpenAI client at line 277 is not a completion call.) -/
def extract {α : Type} (join : Chars → Chars → Chars) (world : World)
    (baseUrl : Chars) (maxDepth : Int) (fuel : Nat) (complete : Chars → α) :
    Except PawError α × Bool :=
  match crawlMarkdown join world baseUrl maxDepth fuel with
  | (Except.error e, _) => (Except.error e, false)
  | (Except.ok md, _) =>
    if pyStrip md = [] then
      (Except.error PawError.emptyContent, false)
    else
      (Except.ok (complete md), true)

/-! ### Trace predicates -/

/-- Scanning the trace left to right while tracking the visited set:
every `fetch` of a URL happens only after that URL was marked visited. -/
def marksPrecedeFetches (marked : List Chars) : List Ev → Bool
  | [] => true
  | Ev.fetch u :: evs => decide (u ∈ marked) && marksPrecedeFetches marked evs
  | Ev.mark u :: evs => marksPrecedeFetches (u :: marked) evs
  | _ :: evs => marksPrecedeFetches marked evs

/-- Number of HTTP fetches of `u` recorded in a trace. -/
def countFetch (u : Chars) (evs : List Ev) : Nat :=
  (evs.filter fun e => decide (e = Ev.fetch u)).length

/-- Number of queue insertions of `u` (at any depth) recorded in a trace. -/
def countEnq (u : Chars) (evs : List Ev) : Nat :=
  (evs.filter fun e =>
    match e with
    | Ev.enq l _ => decide (l = u)
    | _ => false).length

/-- Every `store` event in the trace is at depth at most `d`. -/
def storeDepthsLe (d : Int) (evs : List Ev) : Bool :=
  evs.all fun e =>
    match e with
    | Ev.store _ dep => decide (dep ≤ d)
    | _ => true

/-- Every `deq` and every `enq` event in the trace is at depth at most `d`. -/
def queuedDepthsLe (d : Int) (evs : List Ev) : Bool :=
  evs.all fun e =>
    match e with
    | Ev.deq _ dep => decide (dep ≤ d)
    | Ev.enq _ dep => decide (dep ≤ d)
    | _ => true

/-- Every fetch in the trace is of the URL `u`. -/
def fetchesOnly (u : Chars) (evs : List Ev) : Bool :=
  evs.all fun e =>
    match e with
    | Ev.fetch v => decide (v = u)
    | _ => true

/-- Scanning the trace left to right while tracking the visited set and
the depth of the entry being processed: every `enq` event inserts a URL
that is not yet visited, at depth one more than the dequeued depth. -/
def enqUnvisitedSucc (marked : List Chars) (cur : Int) : List Ev → Bool
  | [] => true
  | Ev.deq _ dep :: evs => enqUnvisitedSucc marked dep evs
  | Ev.mark u :: evs => enqUnvisitedSucc (u :: marked) cur evs
  | Ev.enq l dep :: evs =>
    decide (¬ l ∈ marked) && decide (dep = cur + 1) &&
      enqUnvisitedSucc marked cur evs
  | _ :: evs => enqUnvisitedSucc marked cur evs

/-! ### Concrete worlds used for witnesses and counterexamples -/

/-- A base URL used in concrete evaluations. -/
def urlA : Chars := "http://a.com".toList

/-- A same-domain child URL used in concrete evaluations. -/
def urlC : Chars := "http://a.com/c".toList

/-- A world with a single HTML page at `urlA` and no links. -/
def worldSolo : World := fun url =>
  if url = urlA then some ⟨"text/html".toList, [], "hi".toList⟩ else none

/-- A world whose only page, at `urlA`, is not HTML. -/
def worldNotHtml : World := fun url =>
  if url = urlA then some ⟨"application/json".toList, [], "x".toList⟩ else none

/-- A world where the page at `urlA` links to `urlC` twice and `urlC`
fails to fetch. -/
def worldTwice : World := fun url =>
  if url = urlA then some ⟨"text/html".toList, [urlC, urlC], "hi".toList⟩ else none

/-- A world where the page at `urlA` links back to itself. -/
def worldSelf : World := fun url =>
  if url = urlA then some ⟨"text/html".toList, [urlA], "hi".toList⟩ else none

/-! ### Claim theorems: validation and concrete evaluations -/

/-- C8: a URL that does not start with `http://` or `https://` makes
both `scrape` and `crawl` fail with an invalid-input error before any
network request (the recorded fetch lists/traces are empty). -/
theorem invalid_url_no_network (join : Chars → Chars → Chars) (world : World)
    (url : Chars) (maxDepth : Int) (fuel : Nat)
    (h : validUrl url = false) :
    scrape world url = (Except.error PawError.invalidInput, []) ∧
      crawl join world url maxDepth fuel =
        (Except.error PawError.invalidInput, []) := by
  constructor
  · unfold scrape
    simp [h]
  · unfold crawl
    simp [h]

/-- Witness for C8 at the concrete URL `ftp://x.com`. -/
theorem invalid_url_no_network_witness :
    scrape worldSolo "ftp://x.com".toList =
        (Except.error PawError.invalidInput, []) ∧
      crawl urljoinAbs worldSolo "ftp://x.com".toList 2 5 =
        (Except.error PawError.invalidInput, []) :=
  invalid_url_no_network urljoinAbs worldSolo "ftp://x.com".toList 2 5 (by decide)

/-- C1, code-bug evidence: crawling a single HTML page performs TWO
HTTP fetches of its URL — one by the loop's own `requests.get`
(line 214) and one inside the `self.scrape(url)` call (line 228) —
although the claim allows at most one fetch per URL per crawl. -/
theorem crawl_double_fetch :
    countFetch urlA (crawl urljoinAbs worldSolo urlA 0 5).2 = 2 := by
  decide

/-- C4, counterexample: in `worldSelf` the page at `urlA` (depth 0,
`max_depth` 1) is successfully processed and the link `urlA` is
extracted, yet the trace contains no `enq` event at all: the code
filters already-visited links at ENQUEUE time (line 234), so the
extracted link is not enqueued, contradicting the claim that every
extracted link is enqueued regardless of visited membership. -/
theorem crawl_enqueue_filters_visited :
    extractLinks urljoinAbs [urlA] urlA = [urlA] ∧
      (crawl urljoinAbs worldSelf urlA 1 5).2 =
        [Ev.deq urlA 0, Ev.mark urlA, Ev.fetch urlA, Ev.fetch urlA,
          Ev.store urlA 0] := by
  decide

/-! ### Helper lemmas about traces and the loop -/

theorem crawlLoop_queue_nil (join : Chars → Chars → Chars) (world : World)
    (d : Int) (fuel : Nat) (s : CrawlState) (h : s.queue = []) :
    crawlLoop join world d fuel s = (s, []) := by
  cases fuel with
  | zero => rfl
  | succ n => simp [crawlLoop, h]

theorem countFetch_append (u : Chars) (a b : List Ev) :
    countFetch u (a ++ b) = countFetch u a + countFetch u b := by
  simp [countFetch, List.filter_append]

theorem countFetch_map_enq (u : Chars) (entries : List (Chars × Int)) :
    countFetch u (entries.map fun e => Ev.enq e.1 e.2) = 0 := by
  induction entries with
  | nil => rfl
  | cons e es ih => simpa [countFetch, List.filter] using ih

theorem all_map_enq (f : Ev → Bool) (entries : List (Chars × Int))
    (h : ∀ u dep, f (Ev.enq u dep) = true) :
    (entries.map fun e => Ev.enq e.1 e.2).all f = true := by
  induction entries with
  | nil => rfl
  | cons e es ih => simp [List.all_cons, h, ih]

/-- A `store` event is emitted only for an entry that passed the
dequeue-time check `depth > max_depth` (paw.py line 203), so its depth
is at most `max_depth`. -/
theorem crawlStep_store_le (join : Chars → Chars → Chars) (world : World)
    (d : Int) (url : Chars) (depth : Int) (rest : List (Chars × Int))
    (visited : List Chars) (content : List (Chars × Chars)) :
    storeDepthsLe d
      (crawlStep join world d url depth rest visited content).2 = true := by
  unfold crawlStep
  split
  · rfl
  · next h =>
    have hdep : depth ≤ d := by
      rcases not_or.mp h with ⟨-, h2⟩
      omega
    cases hw : world url with
    | none => rfl
    | some p =>
      dsimp only
      by_cases hh : isHtml p.contentType = true
      · rw [if_pos hh]
        simp only [storeDepthsLe, List.all_append, List.all_cons, List.all_nil,
          Bool.and_eq_true, decide_eq_true_eq]
        refine ⟨⟨trivial, trivial, trivial, trivial, hdep, trivial⟩, ?_⟩
        apply all_map_enq
        intro u dep
        rfl
      · rw [if_neg hh]
        rfl

theorem crawlLoop_store_le (join : Chars → Chars → Chars) (world : World)
    (d : Int) : ∀ (fuel : Nat) (s : CrawlState),
      storeDepthsLe d (crawlLoop join world d fuel s).2 = true := by
  intro fuel
  induction fuel with
  | zero => intro s; rfl
  | succ n ih =>
    intro s
    cases hq : s.queue with
    | nil =>
      rw [crawlLoop_queue_nil join world d (n + 1) s hq]
      rfl
    | cons e rest =>
      obtain ⟨url, depth⟩ := e
      simp only [crawlLoop, hq]
      unfold storeDepthsLe
      rw [List.all_append, Bool.and_eq_true]
      exact ⟨crawlStep_store_le join world d url depth rest s.visited s.content,
        ih _⟩

/-- Every fetch performed while processing a dequeued entry is of that
entry's own URL (both the loop's GET and the inner scrape's GET). -/
theorem crawlStep_fetch_self (join : Chars → Chars → Chars) (world : World)
    (d : Int) (url : Chars) (depth : Int) (rest : List (Chars × Int))
    (visited : List Chars) (content : List (Chars × Chars)) :
    fetchesOnly url (crawlStep join world d url depth rest visited content).2 =
      true := by
  unfold crawlStep
  split
  · rfl
  · cases hw : world url with
    | none => simp [fetchesOnly]
    | some p =>
      dsimp only
      by_cases hh : isHtml p.contentType = true
      · rw [if_pos hh]
        simp only [fetchesOnly, List.all_append, List.all_cons, List.all_nil,
          Bool.and_eq_true, decide_eq_true_eq]
        refine ⟨⟨trivial, trivial, trivial, trivial, trivial, trivial⟩, ?_⟩
        apply all_map_enq
        intro u dep
        rfl
      · rw [if_neg hh]
        simp [fetchesOnly]

/-- With `max_depth = 0`, processing a depth-0 entry never enqueues:
the new queue is exactly the remaining one. -/
theorem crawlStep_queue_zero (join : Chars → Chars → Chars) (world : World)
    (url : Chars) (rest : List (Chars × Int)) (visited : List Chars)
    (content : List (Chars × Chars)) :
    (crawlStep join world 0 url 0 rest visited content).1.queue = rest := by
  unfold crawlStep
  split
  · rfl
  · cases hw : world url with
    | none => rfl
    | some p =>
      dsimp only
      by_cases hh : isHtml p.contentType = true
      · rw [if_pos hh]
        have : ¬((0 : Int) < 0) := by omega
        simp [this]
      · rw [if_neg hh]

theorem crawlLoop_fetchesOnly_base (join : Chars → Chars → Chars)
    (world : World) (base : Chars) : ∀ (fuel : Nat) (s : CrawlState),
      (∀ e ∈ s.queue, e = (base, (0 : Int))) →
      fetchesOnly base (crawlLoop join world 0 fuel s).2 = true := by
  intro fuel
  induction fuel with
  | zero => intro s _; rfl
  | succ n ih =>
    intro s h
    cases hq : s.queue with
    | nil =>
      rw [crawlLoop_queue_nil join world 0 (n + 1) s hq]
      rfl
    | cons e rest =>
      obtain ⟨url, depth⟩ := e
      have he : (url, depth) = (base, (0 : Int)) := by
        apply h
        rw [hq]
        exact List.mem_cons_self _ _
      have h1 : url = base := (Prod.mk.injEq _ _ _ _).mp he |>.1
      have h2 : depth = 0 := (Prod.mk.injEq _ _ _ _).mp he |>.2
      subst h1
      subst h2
      simp only [crawlLoop, hq]
      unfold fetchesOnly
      rw [List.all_append, Bool.and_eq_true]
      constructor
      · exact crawlStep_fetch_self join world 0 url 0 rest s.visited s.content
      · apply ih
        intro e he2
        rw [crawlStep_queue_zero] at he2
        apply h
        rw [hq]
        exact List.mem_cons_of_mem _ he2

/-- C5: no `PageContent` is stored from an entry with traversal depth
greater than `max_depth`, and with `max_depth = 0` every fetch (both
GETs) is of the base URL only — no extracted link is followed. -/
theorem crawl_depth_bound (join : Chars → Chars → Chars) (world : World)
    (base : Chars) (d : Int) (fuel : Nat) (hd : 0 ≤ d) :
    storeDepthsLe d (crawl join world base d fuel).2 = true ∧
      (d = 0 → fetchesOnly base (crawl join world base d fuel).2 = true) := by
  unfold crawl
  by_cases hv : validUrl base = false
  · rw [if_pos hv]
    exact ⟨rfl, fun _ => rfl⟩
  · rw [if_neg hv]
    constructor
    · exact crawlLoop_store_le join world d fuel ⟨[(base, 0)], [], []⟩
    · intro h0
      subst h0
      apply crawlLoop_fetchesOnly_base join world base fuel ⟨[(base, 0)], [], []⟩
      intro e he
      simpa using he

/-- Witness for C5 at `d = 0` in the one-page world. -/
theorem crawl_depth_bound_witness :
    storeDepthsLe 0 (crawl urljoinAbs worldSolo urlA 0 5).2 = true ∧
      ((0 : Int) = 0 →
        fetchesOnly urlA (crawl urljoinAbs worldSolo urlA 0 5).2 = true) :=
  crawl_depth_bound urljoinAbs worldSolo urlA 0 5 (by decide)

theorem queuedDepthsLe_map_enq (d : Int) (entries : List (Chars × Int))
    (h : ∀ e ∈ entries, e.2 ≤ d) :
    queuedDepthsLe d (entries.map fun e => Ev.enq e.1 e.2) = true := by
  induction entries with
  | nil => rfl
  | cons e es ih =>
    simp only [List.map_cons, queuedDepthsLe, List.all_cons, Bool.and_eq_true]
    constructor
    · simpa using h e (List.mem_cons_self _ _)
    · exact ih fun x hx => h x (List.mem_cons_of_mem _ hx)

/-- Entries are enqueued at `depth + 1` only under the guard
`depth < max_depth` (paw.py line 231), so every entry ever placed on
the queue keeps depth at most `max_depth`; the dequeued events of a
step also stay bounded. -/
theorem crawlStep_queued (join : Chars → Chars → Chars) (world : World)
    (d : Int) (url : Chars) (depth : Int) (rest : List (Chars × Int))
    (visited : List Chars) (content : List (Chars × Chars))
    (hdep : depth ≤ d) (hr : ∀ e ∈ rest, e.2 ≤ d) :
    queuedDepthsLe d
        (crawlStep join world d url depth rest visited content).2 = true ∧
      ∀ e ∈ (crawlStep join world d url depth rest visited content).1.queue,
        e.2 ≤ d := by
  unfold crawlStep
  split
  · exact ⟨by simp [queuedDepthsLe, hdep], hr⟩
  · cases hw : world url with
    | none => exact ⟨by simp [queuedDepthsLe, hdep], hr⟩
    | some p =>
      dsimp only
      by_cases hh : isHtml p.contentType = true
      · rw [if_pos hh]
        dsimp only
        have hent : ∀ e ∈ (if depth < d then
            ((extractLinks join p.hrefs url).filter fun l =>
              decide (¬ l ∈ url :: visited)).map fun l => (l, depth + 1)
            else ([] : List (Chars × Int))), e.2 ≤ d := by
          intro e he
          split at he
          · next hlt =>
            obtain ⟨l, hl, hel⟩ := List.mem_map.mp he
            rw [← hel]
            simpa using by omega
          · simp at he
        constructor
        · unfold queuedDepthsLe
          rw [List.all_append, Bool.and_eq_true]
          constructor
          · simp [hdep]
          · exact queuedDepthsLe_map_enq d _ hent
        · intro e he
          rcases List.mem_append.mp he with h1 | h2
          · exact hr e h1
          · exact hent e h2
      · rw [if_neg hh]
        exact ⟨by simp [queuedDepthsLe, hdep], hr⟩

theorem crawlLoop_queued (join : Chars → Chars → Chars) (world : World)
    (d : Int) : ∀ (fuel : Nat) (s : CrawlState),
      (∀ e ∈ s.queue, e.2 ≤ d) →
      queuedDepthsLe d (crawlLoop join world d fuel s).2 = true := by
  intro fuel
  induction fuel with
  | zero => intro s _; rfl
  | succ n ih =>
    intro s h
    cases hq : s.queue with
    | nil =>
      rw [crawlLoop_queue_nil join world d (n + 1) s hq]
      rfl
    | cons e rest =>
      obtain ⟨url, depth⟩ := e
      have hdep : depth ≤ d := by
        have := h (url, depth) (by rw [hq]; exact List.mem_cons_self _ _)
        simpa using this
      have hr : ∀ e ∈ rest, e.2 ≤ d := fun e he =>
        h e (by rw [hq]; exact List.mem_cons_of_mem _ he)
      obtain ⟨hev, hqueue⟩ :=
        crawlStep_queued join world d url depth rest s.visited s.content hdep hr
      simp only [crawlLoop, hq]
      unfold queuedDepthsLe
      rw [List.all_append, Bool.and_eq_true]
      exact ⟨hev, ih _ hqueue⟩

/-- C10: with `max_depth ≥ 0`, every entry ever placed on the queue
(and hence every dequeued entry) has depth at most `max_depth`: the
initial entry has depth `0` and links are enqueued at `depth + 1` only
when `depth < max_depth`, so the dequeue-time discard condition
`depth > max_depth` never holds. -/
theorem crawl_queue_depth_invariant (join : Chars → Chars → Chars)
    (world : World) (base : Chars) (d : Int) (fuel : Nat) (hd : 0 ≤ d) :
    queuedDepthsLe d (crawl join world base d fuel).2 = true := by
  unfold crawl
  by_cases hv : validUrl base = false
  · rw [if_pos hv]
    rfl
  · rw [if_neg hv]
    apply crawlLoop_queued join world d fuel ⟨[(base, 0)], [], []⟩
    intro e he
    simp only [List.mem_singleton] at he
    subst he
    simpa using hd

/-- Witness for C10 at `d = 2` in the two-link world. -/
theorem crawl_queue_depth_witness :
    queuedDepthsLe 2 (crawl urljoinAbs worldTwice urlA 2 5).2 = true :=
  crawl_queue_depth_invariant urljoinAbs worldTwice urlA 2 5 (by decide)

theorem mpf_deq (marked : List Chars) (u : Chars) (dep : Int) (evs : List Ev) :
    marksPrecedeFetches marked (Ev.deq u dep :: evs) =
      marksPrecedeFetches marked evs := rfl

theorem mpf_store (marked : List Chars) (u : Chars) (dep : Int) (evs : List Ev) :
    marksPrecedeFetches marked (Ev.store u dep :: evs) =
      marksPrecedeFetches marked evs := rfl

theorem mpf_mark (marked : List Chars) (u : Chars) (evs : List Ev) :
    marksPrecedeFetches marked (Ev.mark u :: evs) =
      marksPrecedeFetches (u :: marked) evs := rfl

theorem mpf_fetch (marked : List Chars) (u : Chars) (evs : List Ev) :
    marksPrecedeFetches marked (Ev.fetch u :: evs) =
      (decide (u ∈ marked) && marksPrecedeFetches marked evs) := rfl

theorem marksPrecedeFetches_map_enq (marked : List Chars)
    (entries : List (Chars × Int)) (tail : List Ev) :
    marksPrecedeFetches marked
        ((entries.map fun e => Ev.enq e.1 e.2) ++ tail) =
      marksPrecedeFetches marked tail := by
  induction entries with
  | nil => rfl
  | cons e es ih =>
    simp only [List.map_cons, List.cons_append]
    exact ih

theorem crawlLoop_marks (join : Chars → Chars → Chars) (world : World)
    (d : Int) : ∀ (fuel : Nat) (s : CrawlState) (marked : List Chars),
      s.visited ⊆ marked →
      marksPrecedeFetches marked (crawlLoop join world d fuel s).2 = true := by
  intro fuel
  induction fuel with
  | zero => intro s marked _; rfl
  | succ n ih =>
    intro s marked hsub
    cases hq : s.queue with
    | nil =>
      rw [crawlLoop_queue_nil join world d (n + 1) s hq]
      rfl
    | cons e rest =>
      obtain ⟨url, depth⟩ := e
      simp only [crawlLoop, hq]
      unfold crawlStep
      split
      · exact ih ⟨rest, s.visited, s.content⟩ marked hsub
      · have hmem : decide (url ∈ url :: marked) = true := by simp
        cases hw : world url with
        | none =>
          simp only [List.cons_append, List.nil_append, mpf_deq, mpf_mark,
            mpf_fetch]
          rw [hmem]
          rw [Bool.true_and]
          exact ih ⟨rest, url :: s.visited, s.content⟩ (url :: marked)
            (List.cons_subset_cons url hsub)
        | some p =>
          dsimp only
          by_cases hh : isHtml p.contentType = true
          · rw [if_pos hh]
            dsimp only
            simp only [List.cons_append, List.nil_append, List.append_assoc,
              mpf_deq, mpf_mark, mpf_fetch, mpf_store]
            rw [hmem]
            simp only [Bool.true_and]
            rw [marksPrecedeFetches_map_enq]
            exact ih _ (url :: marked) (List.cons_subset_cons url hsub)
          · rw [if_neg hh]
            simp only [List.cons_append, List.nil_append, mpf_deq, mpf_mark,
              mpf_fetch]
            rw [hmem]
            rw [Bool.true_and]
            exact ih ⟨rest, url :: s.visited, s.content⟩ (url :: marked)
              (List.cons_subset_cons url hsub)

theorem countFetch_nil (u : Chars) : countFetch u [] = 0 := rfl

theorem countFetch_cons_ne (u : Chars) (e : Ev) (evs : List Ev)
    (h : e ≠ Ev.fetch u) : countFetch u (e :: evs) = countFetch u evs := by
  simp [countFetch, List.filter_cons, h]

theorem countFetch_cons_self (u : Chars) (evs : List Ev) :
    countFetch u (Ev.fetch u :: evs) = countFetch u evs + 1 := by
  simp [countFetch, List.filter_cons]

/-- The visited set after a step is either unchanged or extended with
the dequeued URL. -/
theorem crawlStep_visited_cases (join : Chars → Chars → Chars) (world : World)
    (d : Int) (url : Chars) (depth : Int) (rest : List (Chars × Int))
    (visited : List Chars) (content : List (Chars × Chars)) :
    (crawlStep join world d url depth rest visited content).1.visited = visited ∨
      (crawlStep join world d url depth rest visited content).1.visited =
        url :: visited := by
  unfold crawlStep
  split
  · exact Or.inl rfl
  · cases hw : world url with
    | none => exact Or.inr rfl
    | some p =>
      dsimp only
      by_cases hh : isHtml p.contentType = true
      · rw [if_pos hh]
        exact Or.inr rfl
      · rw [if_neg hh]
        exact Or.inr rfl

/-- All fetches of a step are of the dequeued URL, so any other URL is
fetched zero times in that step. -/
theorem crawlStep_countFetch_ne (join : Chars → Chars → Chars) (world : World)
    (d : Int) (url : Chars) (depth : Int) (rest : List (Chars × Int))
    (visited : List Chars) (content : List (Chars × Chars)) (u : Chars)
    (hne : url ≠ u) :
    countFetch u (crawlStep join world d url depth rest visited content).2 =
      0 := by
  unfold crawlStep
  split
  · rfl
  · cases hw : world url with
    | none =>
      rw [countFetch_cons_ne _ _ _ (by simp), countFetch_cons_ne _ _ _ (by simp),
        countFetch_cons_ne _ _ _ (by simp [hne]), countFetch_nil]
    | some p =>
      dsimp only
      by_cases hh : isHtml p.contentType = true
      · rw [if_pos hh]
        dsimp only
        rw [List.cons_append, List.cons_append, List.cons_append,
          List.cons_append, List.cons_append, List.nil_append]
        rw [countFetch_cons_ne _ _ _ (by simp), countFetch_cons_ne _ _ _ (by simp),
          countFetch_cons_ne _ _ _ (by simp [hne]),
          countFetch_cons_ne _ _ _ (by simp [hne]),
          countFetch_cons_ne _ _ _ (by simp)]
        exact countFetch_map_enq u _
      · rw [if_neg hh]
        rw [countFetch_cons_ne _ _ _ (by simp), countFetch_cons_ne _ _ _ (by simp),
          countFetch_cons_ne _ _ _ (by simp [hne]), countFetch_nil]

/-- Once a URL is in the visited set, no later iteration ever fetches
it again (paw.py line 203). -/
theorem crawlLoop_no_fetch_visited (join : Chars → Chars → Chars)
    (world : World) (d : Int) (u : Chars) :
    ∀ (fuel : Nat) (s : CrawlState), u ∈ s.visited →
      countFetch u (crawlLoop join world d fuel s).2 = 0 := by
  intro fuel
  induction fuel with
  | zero => intro s _; rfl
  | succ n ih =>
    intro s hu
    cases hq : s.queue with
    | nil =>
      rw [crawlLoop_queue_nil join world d (n + 1) s hq]
      rfl
    | cons e rest =>
      obtain ⟨url, depth⟩ := e
      simp only [crawlLoop, hq]
      rw [countFetch_append]
      have hvis :
          u ∈ (crawlStep join world d url depth rest s.visited s.content).1.visited := by
        rcases crawlStep_visited_cases join world d url depth rest s.visited
          s.content with h | h
        · rw [h]; exact hu
        · rw [h]; exact List.mem_cons_of_mem _ hu
      have hstep :
          countFetch u (crawlStep join world d url depth rest s.visited s.content).2 = 0 := by
        by_cases hequ : url = u
        · subst hequ
          unfold crawlStep
          split
          · rfl
          · next h => exact absurd hu ((not_or.mp h).1 ∘ fun hh => hh)
        · exact crawlStep_countFetch_ne join world d url depth rest s.visited
            s.content u hequ
      rw [hstep, ih _ hvis]

/-- A URL whose fetch fails is fetched at most once in the whole crawl:
it is marked visited before the fetch, and visited URLs are never
processed again. -/
theorem crawlLoop_fetch_failed_le_one (join : Chars → Chars → Chars)
    (world : World) (d : Int) (u : Chars) (hu : world u = none) :
    ∀ (fuel : Nat) (s : CrawlState), u ∉ s.visited →
      countFetch u (crawlLoop join world d fuel s).2 ≤ 1 := by
  intro fuel
  induction fuel with
  | zero => intro s _; exact Nat.zero_le 1
  | succ n ih =>
    intro s hnv
    cases hq : s.queue with
    | nil =>
      rw [crawlLoop_queue_nil join world d (n + 1) s hq]
      exact Nat.zero_le 1
    | cons e rest =>
      obtain ⟨url, depth⟩ := e
      simp only [crawlLoop, hq]
      rw [countFetch_append]
      by_cases hequ : url = u
      · subst hequ
        unfold crawlStep
        split
        · next h =>
          rw [countFetch_cons_ne _ _ _ (by simp), countFetch_nil]
          simpa using ih ⟨rest, s.visited, s.content⟩ hnv
        · rw [hu]
          rw [countFetch_cons_ne _ _ _ (by simp), countFetch_cons_ne _ _ _ (by simp),
            countFetch_cons_self, countFetch_nil]
          have h0 :
              countFetch url (crawlLoop join world d n
                ⟨rest, url :: s.visited, s.content⟩).2 = 0 :=
            crawlLoop_no_fetch_visited join world d url n _
              (List.mem_cons_self _ _)
          rw [h0]
      · rw [crawlStep_countFetch_ne join world d url depth rest s.visited
          s.content u hequ]
        have hnv2 :
            u ∉ (crawlStep join world d url depth rest s.visited s.content).1.visited := by
          rcases crawlStep_visited_cases join world d url depth rest s.visited
            s.content with h | h
          · rw [h]; exact hnv
          · rw [h]
            intro hmem
            rcases List.mem_cons.mp hmem with h1 | h2
            · exact hequ h1.symm
            · exact hnv h2
        simpa using ih _ hnv2

/-- C9: every dequeued URL is inserted into the visited set before any
fetch of it is attempted (trace scan), and a URL whose fetch fails is
never fetched again within the same crawl call. -/
theorem crawl_mark_before_fetch_no_retry (join : Chars → Chars → Chars)
    (world : World) (base : Chars) (d : Int) (fuel : Nat) (u : Chars)
    (hu : world u = none) :
    marksPrecedeFetches [] (crawl join world base d fuel).2 = true ∧
      countFetch u (crawl join world base d fuel).2 ≤ 1 := by
  unfold crawl
  by_cases hv : validUrl base = false
  · rw [if_pos hv]
    exact ⟨rfl, Nat.zero_le 1⟩
  · rw [if_neg hv]
    constructor
    · exact crawlLoop_marks join world d fuel ⟨[(base, 0)], [], []⟩ []
        (by intro x hx; exact hx)
    · exact crawlLoop_fetch_failed_le_one join world d u hu fuel
        ⟨[(base, 0)], [], []⟩ (by simp)

/-- Witness for C9: in the one-page world, `urlC` fails to fetch, and
the properties hold on the concrete trace. -/
theorem crawl_mark_before_fetch_witness :
    marksPrecedeFetches [] (crawl urljoinAbs worldSolo urlA 1 5).2 = true ∧
      countFetch urlC (crawl urljoinAbs worldSolo urlA 1 5).2 ≤ 1 :=
  crawl_mark_before_fetch_no_retry urljoinAbs worldSolo urlA 1 5 urlC rfl

theorem eus_deq (marked : List Chars) (cur : Int) (u : Chars) (dep : Int)
    (evs : List Ev) :
    enqUnvisitedSucc marked cur (Ev.deq u dep :: evs) =
      enqUnvisitedSucc marked dep evs := rfl

theorem eus_mark (marked : List Chars) (cur : Int) (u : Chars)
    (evs : List Ev) :
    enqUnvisitedSucc marked cur (Ev.mark u :: evs) =
      enqUnvisitedSucc (u :: marked) cur evs := rfl

theorem eus_fetch (marked : List Chars) (cur : Int) (u : Chars)
    (evs : List Ev) :
    enqUnvisitedSucc marked cur (Ev.fetch u :: evs) =
      enqUnvisitedSucc marked cur evs := rfl

theorem eus_store (marked : List Chars) (cur : Int) (u : Chars) (dep : Int)
    (evs : List Ev) :
    enqUnvisitedSucc marked cur (Ev.store u dep :: evs) =
      enqUnvisitedSucc marked cur evs := rfl

theorem eus_enq (marked : List Chars) (cur : Int) (l : Chars) (dep : Int)
    (evs : List Ev) :
    enqUnvisitedSucc marked cur (Ev.enq l dep :: evs) =
      (decide (¬ l ∈ marked) && decide (dep = cur + 1) &&
        enqUnvisitedSucc marked cur evs) := rfl

theorem enqUnvisitedSucc_map_append (marked : List Chars) (cur : Int)
    (entries : List (Chars × Int)) (tail : List Ev)
    (h : ∀ e ∈ entries, e.1 ∉ marked ∧ e.2 = cur + 1) :
    enqUnvisitedSucc marked cur
        ((entries.map fun e => Ev.enq e.1 e.2) ++ tail) =
      enqUnvisitedSucc marked cur tail := by
  induction entries with
  | nil => rfl
  | cons e es ih =>
    simp only [List.map_cons, List.cons_append, eus_enq]
    have h1 := h e (List.mem_cons_self _ _)
    rw [decide_eq_true h1.1, decide_eq_true h1.2, Bool.true_and, Bool.true_and]
    exact ih fun x hx => h x (List.mem_cons_of_mem _ hx)

theorem crawlLoop_enq_policy (join : Chars → Chars → Chars) (world : World)
    (d : Int) : ∀ (fuel : Nat) (s : CrawlState) (cur : Int),
      enqUnvisitedSucc s.visited cur (crawlLoop join world d fuel s).2 = true := by
  intro fuel
  induction fuel with
  | zero => intro s cur; rfl
  | succ n ih =>
    intro s cur
    cases hq : s.queue with
    | nil =>
      rw [crawlLoop_queue_nil join world d (n + 1) s hq]
      rfl
    | cons e rest =>
      obtain ⟨url, depth⟩ := e
      simp only [crawlLoop, hq]
      unfold crawlStep
      split
      · exact ih ⟨rest, s.visited, s.content⟩ depth
      · cases hw : world url with
        | none => exact ih ⟨rest, url :: s.visited, s.content⟩ depth
        | some p =>
          dsimp only
          by_cases hh : isHtml p.contentType = true
          · rw [if_pos hh]
            dsimp only
            simp only [List.cons_append, List.nil_append, List.append_assoc,
              eus_deq, eus_mark, eus_fetch, eus_store]
            rw [enqUnvisitedSucc_map_append (url :: s.visited) depth _ _ ?hent]
            · exact ih ⟨_, url :: s.visited, _⟩ depth
            case hent =>
              intro e he
              split at he
              · obtain ⟨l, hl, hel⟩ := List.mem_map.mp he
                rw [← hel]
                refine ⟨?_, rfl⟩
                exact of_decide_eq_true (List.mem_filter.mp hl).2
              · simp at he
          · rw [if_neg hh]
            exact ih ⟨rest, url :: s.visited, s.content⟩ depth

/-- C4 (amended): links extracted from a page processed at
`depth < max_depth` are enqueued at `depth + 1` but ONLY when not
already in the visited set — the visited check happens at enqueue time
(paw.py line 234) as well as at dequeue time.  A not-yet-visited URL
can still be enqueued several times (in `worldTwice` the page links to
`urlC` twice, and both occurrences are enqueued). -/
theorem crawl_enqueue_policy :
    (∀ (join : Chars → Chars → Chars) (world : World) (d : Int)
      (url : Chars) (depth : Int) (rest : List (Chars × Int))
      (visited : List Chars) (content : List (Chars × Chars)) (p : Page),
      url ∉ visited → depth ≤ d → world url = some p →
      isHtml p.contentType = true → depth < d →
      (crawlStep join world d url depth rest visited content).1.queue =
        rest ++ ((extractLinks join p.hrefs url).filter fun l =>
          decide (¬ l ∈ url :: visited)).map fun l => (l, depth + 1)) ∧
    (∀ (join : Chars → Chars → Chars) (world : World) (base : Chars)
      (d cur : Int) (fuel : Nat),
      enqUnvisitedSucc [] cur (crawl join world base d fuel).2 = true) ∧
    countEnq urlC (crawl urljoinAbs worldTwice urlA 1 5).2 = 2 := by
  refine ⟨?_, ?_, ?_⟩
  · intro join world d url depth rest visited content p h1 h2 hw hh hlt
    unfold crawlStep
    rw [if_neg (by rw [not_or]; exact ⟨h1, by omega⟩)]
    rw [hw]
    dsimp only
    rw [if_pos hh]
    dsimp only
    rw [if_pos hlt]
  · intro join world base d cur fuel
    unfold crawl
    by_cases hv : validUrl base = false
    · rw [if_pos hv]
      rfl
    · rw [if_neg hv]
      exact crawlLoop_enq_policy join world d fuel ⟨[(base, 0)], [], []⟩ cur
  · decide

/-- Witness for C4 (amended) at the concrete two-link world: the
resulting queue is exactly the two filtered links at depth 1. -/
theorem crawl_enqueue_policy_witness :
    (crawlStep urljoinAbs worldTwice 1 urlA 0 [] [] []).1.queue =
      [] ++ ((extractLinks urljoinAbs [urlC, urlC] urlA).filter fun l =>
        decide (¬ l ∈ urlA :: [])).map fun l => (l, (0 : Int) + 1) :=
  crawl_enqueue_policy.1 urljoinAbs worldTwice 1 urlA 0 [] [] []
    ⟨"text/html".toList, [urlC, urlC], "hi".toList⟩ (by simp) (by decide) rfl
    (by decide) (by decide)

/-- C7: a crawl whose base URL returns non-HTML content raises no error
and produces a result with zero `PageContent` entries. -/
theorem crawl_nonHtml_base_empty (join : Chars → Chars → Chars)
    (world : World) (base : Chars) (d : Int) (fuel : Nat) (p : Page)
    (h1 : validUrl base = true) (h2 : world base = some p)
    (h3 : isHtml p.contentType = false) :
    (crawl join world base d fuel).1 = Except.ok [] := by
  unfold crawl
  rw [if_neg (by simp [h1])]
  have hcontent : ∀ f : Nat,
      (crawlLoop join world d f ⟨[(base, 0)], [], []⟩).1.content = [] := by
    intro f
    cases f with
    | zero => rfl
    | succ n =>
      simp only [crawlLoop]
      unfold crawlStep
      by_cases hd0 : base ∈ ([] : List Chars) ∨ (0 : Int) > d
      · rw [if_pos hd0]
        rw [crawlLoop_queue_nil join world d n ⟨[], [], []⟩ rfl]
      · rw [if_neg hd0]
        rw [h2]
        dsimp only
        rw [if_neg (by simp [h3])]
        rw [crawlLoop_queue_nil join world d n ⟨[], [base], []⟩ rfl]
  dsimp only
  rw [hcontent fuel]

/-- Witness for C7 in the non-HTML world. -/
theorem crawl_nonHtml_base_empty_witness :
    (crawl urljoinAbs worldNotHtml urlA 2 5).1 = Except.ok [] :=
  crawl_nonHtml_base_empty urljoinAbs worldNotHtml urlA 2 5
    ⟨"application/json".toList, [], "x".toList⟩ (by decide) rfl (by decide)

/-- C6: when the aggregated markdown of the crawl is empty or
whitespace-only after trimming, `extract` fails with `EmptyContent`
and the external completion service is never invoked (the call flag is
`false`, for every completion function of every result type). -/
theorem extract_empty_content {α : Type} (join : Chars → Chars → Chars)
    (world : World) (base : Chars) (d : Int) (fuel : Nat)
    (complete : Chars → α) (md : Chars) (evs : List Ev)
    (h1 : crawlMarkdown join world base d fuel = (Except.ok md, evs))
    (h2 : pyStrip md = []) :
    extract join world base d fuel complete =
      (Except.error PawError.emptyContent, false) := by
  unfold extract
  rw [h1]
  dsimp only
  rw [if_pos h2]

/-- Witness for C6: the non-HTML world yields an empty aggregated
document, and `extract` fails without calling completion. -/
theorem extract_empty_content_witness :
    extract urljoinAbs worldNotHtml urlA 2 5 (fun _ => (0 : Nat)) =
      (Except.error PawError.emptyContent, false) :=
  extract_empty_content urljoinAbs worldNotHtml urlA 2 5 (fun _ => (0 : Nat))
    [] [Ev.deq urlA 0, Ev.mark urlA, Ev.fetch urlA] rfl rfl
